import Mathlib

/-!
Shallow embedding of the "Aditi (Nifty Shop)" trading strategy
(`src/Aditi-NiftyShop-Code-Snippet.py`, `src/app.py`, `src/niftyshopscreener.py`).

Modelling conventions:
* Prices, quantities and percentages are rationals (`ℚ`): the Python code does
  exact-looking arithmetic on floats; `ℚ` gives the same formulas exactly.
* A historical-data fetch is a function `String → Option (List ℚ)` returning the
  date-ordered closing prices for a symbol (`df.sort_index()` is modelled by the
  list already being date-ordered).  `none` models every per-symbol soft failure
  of the Python code: an exception from the provider, a `None`/empty frame, or a
  missing `Close` column.
* A `NaN` moving average (pandas `rolling(20)` on fewer than 20 rows) is
  modelled by `latest20DMA` returning `none`.
* The Python `sorted` / pandas `sort_values` calls followed by truncation are modelled
  with `List.insertionSort`, which is a stable sort, extensionally equal to any
  sort by the same key (the Python Timsort is stable; where the pandas default
  quicksort is unstable the model fixes the stable order, which is one of the
  admissible executions).
* The trade ledger `TradeManager.trades` is passed explicitly as a
  `List Trade`; the quote provider `get_cmp` is a `String → Option ℚ`
  (`None` models an unavailable quote).
-/

namespace NiftyShop

/-- Order status of the entry/exit order attached to a trade; the strategy code
only ever tests for `COMPLETE`. -/
inductive OrderStatus where
  | COMPLETE
  | PENDING
  | CANCELLED
  deriving DecidableEq, Repr

/-- Trade direction; the strategy is long-only but the ledger field exists. -/
inductive Direction where
  | LONG
  | SHORT
  deriving DecidableEq, Repr

/-- An order attached to a trade (`t.entryOrder` in the source). -/
structure Order where
  orderStatus : OrderStatus
  filledQty : ℚ
  deriving DecidableEq, Repr

/-- One trade of the ledger (`TradeManager.trades` element), with exactly the
fields the strategy code reads. -/
structure Trade where
  strategy : String
  tradingSymbol : String
  tradeState : String
  direction : Direction
  entry : ℚ
  filledQty : ℚ
  createTimestamp : Int
  targetOrder : Option Unit
  entryOrder : Option Order
  deriving DecidableEq, Repr

/-- Latest close of a price series (`df[Close].iloc[-1]`). -/
def latestClose (closes : List ℚ) : ℚ := closes.getLastD 0

/-- Latest 20-day moving average (`df[Close].rolling(window=20).mean()`,
last row): `none` when fewer than 20 closes exist (pandas yields `NaN` there,
and both screeners skip the symbol on `pd.isna`). -/
def latest20DMA (closes : List ℚ) : Option ℚ :=
  if closes.length < 20 then none
  else some ((closes.drop (closes.length - 20)).sum / 20)

/-- One iteration of the screening loop of
`get_eligible_stocks_for_today` (snippet, lines 85-107): `none` when the symbol
is skipped (fetch failure, missing/empty data, `NaN` 20DMA, or close not below
the 20DMA), otherwise the `(symbol, deviation)` pair appended to `results`. -/
def screenOne (fetch : String → Option (List ℚ)) (symbol : String) :
    Option (String × ℚ) :=
  match fetch symbol with
  | none => none
  | some closes =>
    if closes.isEmpty then none
    else
      match latest20DMA closes with
      | none => none
      | some dma =>
        let c := latestClose closes
        if c < dma then some (symbol, (c - dma) / dma * 100) else none

/-- The `results` list accumulated over the universe by the screening loop. -/
def screenResults (fetch : String → Option (List ℚ)) (symbols : List String) :
    List (String × ℚ) :=
  symbols.filterMap (screenOne fetch)

/-- Ordering of screened pairs by deviation, the key of
`sorted(results, key=lambda x: x[1])`. -/
def devLe (a b : String × ℚ) : Prop := a.2 ≤ b.2

instance : DecidableRel devLe := fun a b => inferInstanceAs (Decidable (a.2 ≤ b.2))

instance : IsTotal (String × ℚ) devLe := ⟨fun a b => le_total a.2 b.2⟩

instance : IsTrans (String × ℚ) devLe := ⟨fun _ _ _ h1 h2 => le_trans h1 h2⟩

/-- `sorted(results, key=lambda x: x[1])[:5]` of the snippet screener. -/
def top5 (results : List (String × ℚ)) : List (String × ℚ) :=
  (results.insertionSort devLe).take 5

/-- `get_eligible_stocks_for_today` of the snippet (lines 82-111): the top-5
symbols farthest below their 20DMA, ordered by ascending deviation. -/
def get_eligible_stocks_for_today (fetch : String → Option (List ℚ))
    (symbols : List String) : List String :=
  (top5 (screenResults fetch symbols)).map (·.1)

/-- One row of the dashboard screener result frame
(Symbol, Deviation (%), CMP, 20 DMA in `app.py`). -/
structure ScreenRow where
  symbol : String
  deviation : ℚ
  cmp : ℚ
  dma : ℚ
  deriving DecidableEq, Repr

/-- One iteration of the screening loop of the `app.py`
`get_eligible_stocks_for_today` (lines 81-109): like the snippet but with an
explicit `len(df) < 20` guard and a full result row. -/
def app_screenOne (fetch : String → Option (List ℚ)) (symbol : String) :
    Option ScreenRow :=
  match fetch symbol with
  | none => none
  | some closes =>
    if closes.isEmpty ∨ closes.length < 20 then none
    else
      match latest20DMA closes with
      | none => none
      | some dma =>
        let c := latestClose closes
        if c < dma then some ⟨symbol, (c - dma) / dma * 100, c, dma⟩ else none

/-- Ordering of dashboard rows by the `Deviation (%)` column. -/
def rowLe (a b : ScreenRow) : Prop := a.deviation ≤ b.deviation

instance : DecidableRel rowLe := fun a b =>
  inferInstanceAs (Decidable (a.deviation ≤ b.deviation))

instance : IsTotal ScreenRow rowLe := ⟨fun a b => le_total a.deviation b.deviation⟩

instance : IsTrans ScreenRow rowLe := ⟨fun _ _ _ h1 h2 => le_trans h1 h2⟩

/-- `app.py` `get_eligible_stocks_for_today` (lines 72-121):
`results_df.sort_values(by=Deviation).head(5)`. -/
def app_get_eligible (fetch : String → Option (List ℚ)) (symbols : List String) :
    List ScreenRow :=
  ((symbols.filterMap (app_screenOne fetch)).insertionSort rowLe).take 5

/-- Modelled from the spec: `Utils.round_off_price` belongs to the external
FabTrader platform and is not among the sources of this repository; the spec
(sections 3 and 4.3) defines `unrealizedPnlPct` directly as the exact
percentage, so the utility is modelled as the identity on `ℚ`. -/
def round_off_price (x : ℚ) : ℚ := x

/-- The trade filter shared by `initiate_sell` (lines 197-203) and the
averaging-row builder of `initiate_buy` (lines 144-156): same strategy, active,
no target order yet, entry order complete with a positive filled quantity.
An absent (`None`) entry order cannot satisfy the `COMPLETE` test. -/
def activeFilled (name : String) (t : Trade) : Bool :=
  t.strategy == name && t.tradeState == "active" && t.targetOrder.isNone &&
    (match t.entryOrder with
     | some o => o.orderStatus == OrderStatus.COMPLETE && decide (0 < o.filledQty)
     | none => false)

/-- One step of building the `symbol_trades` dict:
`symbol_trades.setdefault(trade.tradingSymbol, []).append(trade)`, keeping the
Python `dict` insertion order (first occurrence of each key). -/
def addToGroup (acc : List (String × List Trade)) (t : Trade) :
    List (String × List Trade) :=
  if acc.any (fun p => p.1 == t.tradingSymbol) then
    acc.map (fun p => if p.1 == t.tradingSymbol then (p.1, p.2 ++ [t]) else p)
  else acc ++ [(t.tradingSymbol, [t])]

/-- The `{symbol: [list of active trades]}` grouping of `initiate_sell`. -/
def symbol_trades (name : String) (trades : List Trade) :
    List (String × List Trade) :=
  (trades.filter (activeFilled name)).foldl addToGroup []

/-- The quantity-weighted average entry price of a list of trades
(`sum(t.entry * t.filledQty for t in trades) / total_qty`, line 211). -/
def weighted_entry (ts : List Trade) : ℚ :=
  (ts.map (fun t => t.entry * t.filledQty)).sum / (ts.map (·.filledQty)).sum

/-- The aggregate unrealised P&L percentage of the trade group of one symbol
(lines 207-217): `none` when the total quantity is zero or no quote is
available, otherwise `round_off_price(unrealised_pnl * 100 / (total_qty *
weighted_entry))`. -/
def aggregate_pnl_pct (get_cmp : String → Option ℚ) (symbol : String)
    (ts : List Trade) : Option ℚ :=
  let total := (ts.map (·.filledQty)).sum
  if total = 0 then none
  else
    match get_cmp symbol with
    | none => none
    | some cmp =>
      let we := weighted_entry ts
      let unrealised := total * (cmp - we)
      some (round_off_price (unrealised * 100 / (total * we)))

/-- One iteration of the candidate loop of `initiate_sell` (lines 206-220):
the `(symbol, pnl_pct)` appended to `candidates` when the aggregate P&L%
reaches the target, `none` otherwise. -/
def sellCandidate (get_cmp : String → Option ℚ) (target : ℚ)
    (p : String × List Trade) : Option (String × ℚ) :=
  match aggregate_pnl_pct get_cmp p.1 p.2 with
  | none => none
  | some pct => if target ≤ pct then some (p.1, pct) else none

/-- The full `candidates` list of `initiate_sell`, projected to
`(symbol, pnl_pct)`. -/
def sellCandidates (name : String) (get_cmp : String → Option ℚ) (target : ℚ)
    (trades : List Trade) : List (String × ℚ) :=
  (symbol_trades name trades).filterMap (sellCandidate get_cmp target)

/-- Descending order by P&L percentage, the key of
`candidates.sort(key=lambda x: x[1], reverse=True)`. -/
def pnlGe (a b : String × ℚ) : Prop := b.2 ≤ a.2

instance : DecidableRel pnlGe := fun a b => inferInstanceAs (Decidable (b.2 ≤ a.2))

instance : IsTotal (String × ℚ) pnlGe := ⟨fun a b => le_total b.2 a.2⟩

instance : IsTrans (String × ℚ) pnlGe := ⟨fun _ _ _ h1 h2 => le_trans h2 h1⟩

/-- `initiate_sell` (lines 188-235) as the list of `(symbol, pnl_pct)` pairs
actually squared off: qualifying symbols sorted by descending aggregate P&L%
and truncated to `max_sells_per_day`. -/
def initiate_sell (name : String) (target : ℚ) (maxSells : Nat)
    (trades : List Trade) (get_cmp : String → Option ℚ) : List (String × ℚ) :=
  ((sellCandidates name get_cmp target trades).insertionSort pnlGe).take maxSells

/-- The `already_held` test of `initiate_buy` (lines 120-124): any active trade
of this strategy on the symbol (note: weaker than `activeFilled`, no
entry-order conditions). -/
def alreadyHeld (name : String) (trades : List Trade) (stock : String) : Bool :=
  trades.any fun t =>
    t.strategy == name && t.tradeState == "active" && t.tradingSymbol == stock

/-- Step 1 of `initiate_buy` (lines 115-130): walk the screened list in order
and buy each not-already-held symbol while under the daily cap; returns the
list of new buys placed. -/
def step1_new_buys (name : String) (maxBuys : Nat) (trades : List Trade)
    (stock_list : List String) : List String :=
  stock_list.foldl
    (fun acc stock =>
      if !alreadyHeld name trades stock && acc.length < maxBuys then
        acc ++ [stock]
      else acc)
    []

/-- One row of the averaging frame of `initiate_buy`
(Symbol, LastBuyPrice = t.entry, Date = t.createTimestamp). -/
structure Row where
  symbol : String
  lastBuyPrice : ℚ
  date : Int
  deriving DecidableEq, Repr

/-- The `rows` list of `initiate_buy` (lines 144-156). -/
def holdingRows (name : String) (trades : List Trade) : List Row :=
  (trades.filter (activeFilled name)).map
    (fun t => ⟨t.tradingSymbol, t.entry, t.createTimestamp⟩)

/-- `idxmax` of the rows of one symbol by `Date`: the first row carrying the maximal
timestamp (pandas `idxmax` returns the first index of the maximum). -/
def argmaxDate (rows : List Row) : Option Row :=
  rows.foldl
    (fun acc r =>
      match acc with
      | none => some r
      | some b => if b.date < r.date then some r else some b)
    none

/-- The distinct symbols of the rows, in first-occurrence order. -/
def distinctSymbols (rows : List Row) : List String :=
  (rows.map (·.symbol)).foldl
    (fun acc s => if acc.contains s then acc else acc ++ [s]) []

/-- Byte-wise lexicographic order on symbol names, the group order of
`df.groupby(Symbol)` (pandas sorts group keys ascending). -/
def strLeAux : List Char → List Char → Bool
  | [], _ => true
  | _ :: _, [] => false
  | a :: as, b :: bs =>
    if a.toNat < b.toNat then true
    else if b.toNat < a.toNat then false
    else strLeAux as bs

/-- Lexicographic order on strings, lifted from `strLeAux`. -/
def strLeP (a b : String) : Prop := strLeAux a.data b.data = true

instance : DecidableRel strLeP := fun a b =>
  inferInstanceAs (Decidable (strLeAux a.data b.data = true))

/-- `df.loc[df.groupby(Symbol)[Date].idxmax()]` (line 165): one row per
symbol — the latest purchase — with the groups in ascending symbol order. -/
def latestRows (rows : List Row) : List Row :=
  ((distinctSymbols rows).insertionSort strLeP).filterMap
    (fun s => argmaxDate (rows.filter (fun r => r.symbol == s)))

/-- Round half to even (the rounding of numpy/pandas `round`). -/
def round_half_even (r : ℚ) : Int :=
  let f := ⌊r⌋
  if r < f + 1 / 2 then f
  else if f + 1 / 2 < r then f + 1
  else if f % 2 = 0 then f else f + 1

/-- Pandas `.round(2)`: round half to even at two decimal places. -/
def roundq2 (x : ℚ) : ℚ := (round_half_even (x * 100) : ℚ) / 100

/-- The `ChangePct` column (lines 169-170):
`((Close - LastBuyPrice) / LastBuyPrice * 100).round(2)`. -/
def changePct (lastBuy cmp : ℚ) : ℚ := roundq2 ((cmp - lastBuy) / lastBuy * 100)

/-- `_current_averaging_count` (lines 237-248): how many completed, filled
long entries this strategy ever placed on the symbol (any trade state). -/
def current_averaging_count (name : String) (trades : List Trade)
    (symbol : String) : Nat :=
  (trades.filter fun t =>
    t.strategy == name && t.tradingSymbol == symbol &&
      t.direction == Direction.LONG &&
      (match t.entryOrder with
       | some o => o.orderStatus == OrderStatus.COMPLETE && decide (0 < o.filledQty)
       | none => false)).length

/-- Ascending order by the `ChangePct` column, the key of
`sort_values(ChangePct)`. -/
def chLe (a b : String × ℚ) : Prop := a.2 ≤ b.2

instance : DecidableRel chLe := fun a b => inferInstanceAs (Decidable (a.2 ≤ b.2))

instance : IsTotal (String × ℚ) chLe := ⟨fun a b => le_total a.2 b.2⟩

instance : IsTrans (String × ℚ) chLe := ⟨fun _ _ _ h1 h2 => le_trans h1 h2⟩

/-- The `(Symbol, ChangePct)` columns of the averaging frame (lines 168-170):
one entry per held symbol at its latest purchase, with `ChangePct` computed
against the current price.  A symbol with no available quote is dropped (its
`ChangePct` is `NaN` in pandas, and `NaN ≤ averaging_pct` is false in the
subsequent filter). -/
def averagingWithChange (name : String) (trades : List Trade)
    (get_cmp : String → Option ℚ) : List (String × ℚ) :=
  (latestRows (holdingRows name trades)).filterMap
    (fun r =>
      match get_cmp r.symbol with
      | none => none
      | some cmp => some (r.symbol, changePct r.lastBuyPrice cmp))

/-- The averaging frame of `initiate_buy` after lines 158-176: rows filtered
to `ChangePct ≤ averaging_pct`, sorted ascending by `ChangePct`, then
filtered to `AvgCount < max_averaging_per_stock`. -/
def averagingCandidates (name : String) (avgPct : ℚ) (maxAvg : Nat)
    (trades : List Trade) (get_cmp : String → Option ℚ) : List (String × ℚ) :=
  (((averagingWithChange name trades get_cmp).filter
      (fun p => decide (p.2 ≤ avgPct))).insertionSort chLe).filter
    (fun p => decide (current_averaging_count name trades p.1 < maxAvg))

/-- The observable outcome of one `initiate_buy` call: the new buys placed by
step 1 and the optional averaging buy of step 2. -/
structure BuyResult where
  newBuys : List String
  averagingBuy : Option String
  deriving DecidableEq, Repr

/-- `initiate_buy` (lines 113-186): place new buys from the screened list; only
when none was placed, fall through to the averaging logic and buy the top
(most fallen) remaining candidate, if any. -/
def initiate_buy (name : String) (maxBuys : Nat) (avgPct : ℚ) (maxAvg : Nat)
    (trades : List Trade) (get_cmp : String → Option ℚ)
    (stock_list : List String) : BuyResult :=
  let nb := step1_new_buys name maxBuys trades stock_list
  if 0 < nb.length then ⟨nb, none⟩
  else ⟨nb, (averagingCandidates name avgPct maxAvg trades get_cmp).head?.map (·.1)⟩

/-- One active holding row of the uploaded trade CSV of the dashboard
(`app.py`, columns `Symbol`, `Entry`, `Pnl%`). -/
structure Holding where
  symbol : String
  entry : ℚ
  pnlPct : ℚ
  deriving DecidableEq, Repr

/-- The new-buy loop of the dashboard (lines 212-217): eligible rows in
screened order, buying each not-held symbol under the daily cap. -/
def app_new_buys (maxBuys : Nat) (eligible : List ScreenRow)
    (held_symbols : List String) : List String :=
  eligible.foldl
    (fun acc r =>
      if !held_symbols.contains r.symbol && acc.length < maxBuys then
        acc ++ [r.symbol]
      else acc)
    []

/-- The `potential_avg` list of the dashboard (lines 222-231): for each
holding, look its symbol up in the screened top-5 frame; only when present is
a current price available and the change computed and thresholded. -/
def app_potential_avg (avgPct : ℚ) (eligible : List ScreenRow)
    (holdings : List Holding) : List (String × ℚ) :=
  holdings.filterMap
    (fun h =>
      match eligible.find? (fun r => r.symbol == h.symbol) with
      | none => none
      | some r =>
        let change := (r.cmp - h.entry) / h.entry * 100
        if change ≤ avgPct then some (h.symbol, change) else none)

/-- The averaging recommendation of the dashboard (lines 220-235): evaluated only
when step 1 recommended nothing and both frames are non-empty; picks the row
with the minimal `ChangePct` (`sort_values(ChangePct).iloc[0]`). -/
def app_averaging_choice (maxBuys : Nat) (avgPct : ℚ)
    (eligible : List ScreenRow) (holdings : List Holding) : Option String :=
  let held := holdings.map (·.symbol)
  let nb := app_new_buys maxBuys eligible held
  if nb.isEmpty && !eligible.isEmpty && !holdings.isEmpty then
    ((app_potential_avg avgPct eligible holdings).insertionSort chLe).head?.map (·.1)
  else none

/-- Builds an active, completely filled long trade of the `Aditi` strategy,
used by the concrete witness scenarios. -/
def mkTrade (sym : String) (entry qty : ℚ) (ts : Int) : Trade :=
  { strategy := "Aditi", tradingSymbol := sym, tradeState := "active",
    direction := Direction.LONG, entry := entry, filledQty := qty,
    createTimestamp := ts, targetOrder := none,
    entryOrder := some ⟨OrderStatus.COMPLETE, qty⟩ }

/-! Helper lemmas. -/

theorem mem_of_mem_take_insertionSort {α : Type _} (r : α → α → Prop)
    [DecidableRel r] {n : Nat} {l : List α} {x : α}
    (h : x ∈ (List.insertionSort r l).take n) : x ∈ l :=
  (List.mem_insertionSort r).1 ((List.take_sublist n _).subset h)

theorem pairwise_take_insertionSort {α : Type _} (r : α → α → Prop)
    [DecidableRel r] [IsTotal α r] [IsTrans α r] (n : Nat) (l : List α) :
    ((List.insertionSort r l).take n).Pairwise r :=
  List.Pairwise.sublist (List.take_sublist n _) (List.sorted_insertionSort r l)

theorem filterMap_skip_none {α β : Type _} [BEq α] [LawfulBEq α]
    (f : α → Option β) (s : α) (hf : f s = none) :
    ∀ l : List α, l.filterMap f = (l.filter (fun x => x != s)).filterMap f := by
  intro l
  induction l with
  | nil => rfl
  | cons a t ih =>
    by_cases ha : a = s
    · subst ha
      simp [List.filterMap_cons, hf, ih]
    · have hne : (a != s) = true := by
        simp [bne_iff_ne]
        exact ha
      simp [List.filterMap_cons, List.filter_cons, hne, ih]

def c1Trades : List Trade := [mkTrade "AAA" 100 10 1, mkTrade "BBB" 100 10 2]

def c1Cmp : String → Option ℚ := fun s =>
  if s == "AAA" then some 108 else if s == "BBB" then some 106 else none

def c2Trades : List Trade := [mkTrade "HHH" 100 10 1]

def c2Cmp : String → Option ℚ := fun s => if s == "HHH" then some 90 else none

/-- C2: Within one decision cycle, the averaging fallback is evaluated only
when the new-buy step placed zero new buys: if at least one new buy occurred,
no averaging buy is placed in that cycle, even if averaging candidates
exist. -/
theorem C2_no_averaging_when_new_buys (name : String) (maxBuys : Nat)
    (avgPct : ℚ) (maxAvg : Nat) (trades : List Trade)
    (get_cmp : String → Option ℚ) (stock_list : List String)
    (h : (initiate_buy name maxBuys avgPct maxAvg trades get_cmp
        stock_list).newBuys ≠ []) :
    (initiate_buy name maxBuys avgPct maxAvg trades get_cmp
        stock_list).averagingBuy = none := by
  unfold initiate_buy at h ⊢
  by_cases h0 : 0 < (step1_new_buys name maxBuys trades stock_list).length
  · simp only [if_pos h0]
  · exfalso
    simp only [if_neg h0] at h
    exact h (List.eq_nil_of_length_eq_zero (Nat.eq_zero_of_not_pos h0))

/-- Witness for C2: with `NEW` screened and not held, a new buy occurs and the
averaging buy is withheld even though `HHH` is an averaging candidate
(fallen 10%, under the cap). -/
theorem C2_no_averaging_when_new_buys_witness :
    (initiate_buy "Aditi" 1 (-5) 3 c2Trades c2Cmp ["NEW"]).averagingBuy = none ∧
    averagingCandidates "Aditi" (-5) 3 c2Trades c2Cmp = [("HHH", -10)] := by
  constructor
  · apply C2_no_averaging_when_new_buys
    have hnb : (initiate_buy "Aditi" 1 (-5) 3 c2Trades c2Cmp ["NEW"]).newBuys
        = ["NEW"] := by
      norm_num +decide [initiate_buy, step1_new_buys, alreadyHeld, c2Trades,
        c2Cmp, mkTrade]
    rw [hnb]
    exact List.cons_ne_nil _ _
  · norm_num +decide [averagingCandidates, averagingWithChange, latestRows,
      holdingRows, activeFilled, distinctSymbols, strLeP, strLeAux, argmaxDate,
      changePct, roundq2, round_half_even, current_averaging_count, chLe,
      c2Trades, c2Cmp, mkTrade, List.insertionSort, List.orderedInsert,
      List.filterMap_cons]

/-- C3: For every universe and lookback window, the screening operation
returns at most 5 symbols (the hard-coded top-K), and the returned list is
ordered ascending by deviation, most negative first — in both the strategy
snippet and the dashboard implementation. -/
theorem C3_screen_topk_and_sorted :
    (∀ (fetch : String → Option (List ℚ)) (symbols : List String),
       (get_eligible_stocks_for_today fetch symbols).length ≤ 5 ∧
       get_eligible_stocks_for_today fetch symbols
         = (top5 (screenResults fetch symbols)).map (·.1) ∧
       ((top5 (screenResults fetch symbols)).map (·.2)).Pairwise (· ≤ ·)) ∧
    (∀ (fetch : String → Option (List ℚ)) (symbols : List String),
       (app_get_eligible fetch symbols).length ≤ 5 ∧
       ((app_get_eligible fetch symbols).map (·.deviation)).Pairwise (· ≤ ·)) := by
  constructor
  · intro fetch symbols
    refine ⟨?_, rfl, ?_⟩
    · have hl : (get_eligible_stocks_for_today fetch symbols).length
          = ((List.insertionSort devLe (screenResults fetch symbols)).take 5).length := by
        simp [get_eligible_stocks_for_today, top5]
      rw [hl]
      exact List.length_take_le 5 _
    · exact List.pairwise_map.2 (pairwise_take_insertionSort devLe 5 _)
  · intro fetch symbols
    constructor
    · have hl : (app_get_eligible fetch symbols).length
          = ((List.insertionSort rowLe (symbols.filterMap (app_screenOne fetch))).take 5).length := by
        simp [app_get_eligible]
      rw [hl]
      exact List.length_take_le 5 _
    · exact List.pairwise_map.2 (pairwise_take_insertionSort rowLe 5 _)

/-- C8: A per-symbol data-fetch failure, missing or empty data, or
missing moving-average value (all modelled by `screenOne`/`app_screenOne`
returning `none`) causes only that symbol to be skipped: the screening result
over the whole universe equals the result over the universe with that symbol
removed, in both implementations; the screening functions are total, so the
batch always completes. -/
theorem C8_soft_skip (fetch : String → Option (List ℚ)) (symbols : List String)
    (s : String) :
    (screenOne fetch s = none →
       get_eligible_stocks_for_today fetch symbols =
         get_eligible_stocks_for_today fetch (symbols.filter (fun x => x != s))) ∧
    (app_screenOne fetch s = none →
       app_get_eligible fetch symbols =
         app_get_eligible fetch (symbols.filter (fun x => x != s))) := by
  constructor
  · intro h
    unfold get_eligible_stocks_for_today top5 screenResults
    rw [filterMap_skip_none (screenOne fetch) s h symbols]
  · intro h
    unfold app_get_eligible
    rw [filterMap_skip_none (app_screenOne fetch) s h symbols]

/-- A 20-day series whose latest close (80) sits below its 20-day average
(99), used by the concrete scenarios. -/
def fallenCloses : List ℚ :=
  [100, 100, 100, 100, 100, 100, 100, 100, 100, 100,
   100, 100, 100, 100, 100, 100, 100, 100, 100, 80]

def c8Fetch : String → Option (List ℚ) := fun s =>
  if s == "GOOD" then some fallenCloses else none

/-- Witness for C8: symbol `BAD` has no data; screening the universe
`[GOOD, BAD]` gives the same result as screening it with `BAD` removed. -/
theorem C8_soft_skip_witness :
    screenOne c8Fetch "BAD" = none ∧
    get_eligible_stocks_for_today c8Fetch ["GOOD", "BAD"] =
      get_eligible_stocks_for_today c8Fetch
        (["GOOD", "BAD"].filter (fun x => x != "BAD")) := by
  have h : screenOne c8Fetch "BAD" = none := by
    norm_num +decide [screenOne, c8Fetch]
  exact ⟨h, (C8_soft_skip c8Fetch ["GOOD", "BAD"] "BAD").1 h⟩

theorem screenOne_spec {fetch : String → Option (List ℚ)} {s : String}
    {p : String × ℚ} (h : screenOne fetch s = some p) :
    ∃ closes dma, fetch s = some closes ∧ latest20DMA closes = some dma ∧
      latestClose closes < dma ∧
      p = (s, (latestClose closes - dma) / dma * 100) := by
  simp only [screenOne] at h
  split at h
  · cases h
  next closes hf =>
    split at h
    · cases h
    · split at h
      · cases h
      next dma hd =>
        split at h
        next hlt =>
          cases h
          exact ⟨closes, dma, hf, hd, hlt, rfl⟩
        · cases h

theorem app_screenOne_spec {fetch : String → Option (List ℚ)} {s : String}
    {r : ScreenRow} (h : app_screenOne fetch s = some r) :
    ∃ closes, fetch s = some closes ∧ latest20DMA closes = some r.dma ∧
      r.symbol = s ∧ r.cmp = latestClose closes ∧ r.cmp < r.dma ∧
      r.deviation = (r.cmp - r.dma) / r.dma * 100 := by
  simp only [app_screenOne] at h
  split at h
  · cases h
  next closes hf =>
    split at h
    · cases h
    · split at h
      · cases h
      next dma hd =>
        split at h
        next hlt =>
          cases h
          exact ⟨closes, hf, hd, rfl, rfl, hlt, rfl⟩
        · cases h

theorem latest20DMA_pos {closes : List ℚ} {dma : ℚ}
    (hd : latest20DMA closes = some dma) (hpos : ∀ c ∈ closes, 0 < c) :
    0 < dma := by
  unfold latest20DMA at hd
  split at hd
  · cases hd
  next hlen20 =>
    obtain rfl : (closes.drop (closes.length - 20)).sum / 20 = dma :=
      Option.some.inj hd
    have hlen : (closes.drop (closes.length - 20)).length = 20 := by
      rw [List.length_drop]
      omega
    have hne : closes.drop (closes.length - 20) ≠ [] := by
      intro hnil
      rw [hnil] at hlen
      simp at hlen
    have hsum : 0 < (closes.drop (closes.length - 20)).sum :=
      List.sum_pos _ (fun x hx => hpos x (List.mem_of_mem_drop hx)) hne
    exact div_pos hsum (by norm_num)

theorem deviation_neg {c dma : ℚ} (hlt : c < dma) (hdma : 0 < dma) :
    (c - dma) / dma * 100 < 0 :=
  mul_neg_of_neg_of_pos (div_neg_of_neg_of_pos (by linarith) hdma) (by norm_num)

/-- C4: A symbol whose latest close is greater than or equal to its latest
20-day moving average is never included in the screening output: every pair
in the output comes from a fetched series whose latest close is strictly
below the latest 20DMA, and (for positive prices) carries a negative
deviation — in both implementations. -/
theorem C4_only_below_dma (fetch : String → Option (List ℚ))
    (symbols : List String) :
    (∀ p ∈ top5 (screenResults fetch symbols),
       ∃ closes dma, fetch p.1 = some closes ∧ latest20DMA closes = some dma ∧
         latestClose closes < dma ∧
         ((∀ c ∈ closes, 0 < c) → p.2 < 0)) ∧
    (∀ r ∈ app_get_eligible fetch symbols,
       ∃ closes, fetch r.symbol = some closes ∧
         latest20DMA closes = some r.dma ∧ r.cmp = latestClose closes ∧
         r.cmp < r.dma ∧ ((∀ c ∈ closes, 0 < c) → r.deviation < 0)) := by
  constructor
  · intro p hp
    have hmem : p ∈ screenResults fetch symbols :=
      mem_of_mem_take_insertionSort devLe hp
    obtain ⟨s, hs, hsome⟩ := List.mem_filterMap.1 hmem
    obtain ⟨closes, dma, hf, hd, hlt, hpeq⟩ := screenOne_spec hsome
    subst hpeq
    exact ⟨closes, dma, hf, hd, hlt, fun hpos =>
      deviation_neg hlt (latest20DMA_pos hd hpos)⟩
  · intro r hr
    have hmem : r ∈ symbols.filterMap (app_screenOne fetch) :=
      mem_of_mem_take_insertionSort rowLe hr
    obtain ⟨s, hs, hsome⟩ := List.mem_filterMap.1 hmem
    obtain ⟨closes, hf, hd, hsym, hcmp, hlt, hdev⟩ := app_screenOne_spec hsome
    refine ⟨closes, ?_, hd, hcmp, hlt, ?_⟩
    · rw [hsym]
      exact hf
    · intro hpos
      rw [hdev]
      exact deviation_neg hlt (latest20DMA_pos hd hpos)

def c4Fetch : String → Option (List ℚ) := fun s =>
  if s == "SSS" then some fallenCloses else none

/-- Witness for C4: `SSS` closes at 80 against a 20DMA of 99, is included,
and its deviation is negative. -/
theorem C4_only_below_dma_witness :
    ("SSS", ((80 : ℚ) - 99) / 99 * 100) ∈ top5 (screenResults c4Fetch ["SSS"]) ∧
    ((80 : ℚ) - 99) / 99 * 100 < 0 := by
  have hmem : ("SSS", ((80 : ℚ) - 99) / 99 * 100)
      ∈ top5 (screenResults c4Fetch ["SSS"]) := by
    norm_num +decide [top5, screenResults, screenOne, c4Fetch, fallenCloses,
      latest20DMA, latestClose, List.insertionSort, List.orderedInsert,
      List.filterMap_cons]
  obtain ⟨closes, dma, hf, hd, hlt, hneg⟩ :=
    (C4_only_below_dma c4Fetch ["SSS"]).1 _ hmem
  have hff : c4Fetch "SSS" = some fallenCloses := by norm_num [c4Fetch]
  rw [hff] at hf
  obtain rfl := Option.some.inj hf
  refine ⟨hmem, hneg ?_⟩
  intro c hc
  have hc2 : c = 100 ∨ c = 80 := by
    simpa [fallenCloses] using hc
  rcases hc2 with rfl | rfl <;> norm_num

def c9Fetch : String → Option (List ℚ) := fun s =>
  if s == "AAA" || s == "BBB" then some fallenCloses else none

/-- C9 counterexample: with two symbols carrying identical price data (hence
equal deviations), permuting the universe permutes the screening output —
the stable sort keeps the tied symbols in iteration order, so the claimed
order-independence fails as stated. -/
theorem C9_counterexample :
    (["AAA", "BBB"] : List String).Perm ["BBB", "AAA"] ∧
    get_eligible_stocks_for_today c9Fetch ["AAA", "BBB"] ≠
      get_eligible_stocks_for_today c9Fetch ["BBB", "AAA"] := by
  constructor
  · exact List.Perm.swap _ _ _
  · have h1 : get_eligible_stocks_for_today c9Fetch ["AAA", "BBB"]
        = ["AAA", "BBB"] := by
      norm_num +decide [get_eligible_stocks_for_today, top5, screenResults,
        screenOne, c9Fetch, fallenCloses, latest20DMA, latestClose, devLe,
        List.insertionSort, List.orderedInsert, List.filterMap_cons]
    have h2 : get_eligible_stocks_for_today c9Fetch ["BBB", "AAA"]
        = ["BBB", "AAA"] := by
      norm_num +decide [get_eligible_stocks_for_today, top5, screenResults,
        screenOne, c9Fetch, fallenCloses, latest20DMA, latestClose, devLe,
        List.insertionSort, List.orderedInsert, List.filterMap_cons]
    rw [h1, h2]
    decide

/-- Strict ordering of screened pairs by deviation; vacuously antisymmetric,
which is what makes sorted permutations with distinct keys unique. -/
def devLt (a b : String × ℚ) : Prop := a.2 < b.2

instance : IsAntisymm (String × ℚ) devLt :=
  ⟨fun _ _ h1 h2 => absurd h2 (lt_asymm h1)⟩

/-- C9 amended: the screening selection is order-independent provided the
computed deviations are pairwise distinct: for any permutation of the
universe, given the same per-symbol price data, both the top-5 pair list and
the returned symbol list coincide.  (With tied deviations the stable sort
preserves iteration order and the outputs can differ, as the counterexample
shows.) -/
theorem C9_order_independent_when_distinct (fetch : String → Option (List ℚ))
    (symbols symbols2 : List String) (hperm : symbols.Perm symbols2)
    (hnodup : ((screenResults fetch symbols).map (·.2)).Nodup) :
    top5 (screenResults fetch symbols) = top5 (screenResults fetch symbols2) ∧
    get_eligible_stocks_for_today fetch symbols =
      get_eligible_stocks_for_today fetch symbols2 := by
  have hp : (screenResults fetch symbols).Perm (screenResults fetch symbols2) :=
    hperm.filterMap _
  have hpl : (List.insertionSort devLe (screenResults fetch symbols)).Perm
      (List.insertionSort devLe (screenResults fetch symbols2)) :=
    ((List.perm_insertionSort devLe _).trans hp).trans
      (List.perm_insertionSort devLe _).symm
  have hn1 : ((List.insertionSort devLe (screenResults fetch symbols)).map
      (·.2)).Nodup :=
    ((List.perm_insertionSort devLe _).map (·.2)).nodup_iff.2 hnodup
  have hn2 : ((List.insertionSort devLe (screenResults fetch symbols2)).map
      (·.2)).Nodup :=
    (hpl.map (·.2)).nodup_iff.1 hn1
  have key1 : (List.insertionSort devLe (screenResults fetch symbols)).Pairwise
      devLt :=
    ((List.sorted_insertionSort devLe _).and (List.pairwise_map.1 hn1)).imp
      (fun h => lt_of_le_of_ne h.1 h.2)
  have key2 : (List.insertionSort devLe (screenResults fetch symbols2)).Pairwise
      devLt :=
    ((List.sorted_insertionSort devLe _).and (List.pairwise_map.1 hn2)).imp
      (fun h => lt_of_le_of_ne h.1 h.2)
  have heq : List.insertionSort devLe (screenResults fetch symbols)
      = List.insertionSort devLe (screenResults fetch symbols2) :=
    List.eq_of_perm_of_sorted hpl key1 key2
  constructor
  · unfold top5
    rw [heq]
  · unfold get_eligible_stocks_for_today top5
    rw [heq]

/-- A second 20-day series, latest close 90 against a 20DMA of 99.5, giving a
deviation distinct from that of `fallenCloses`. -/
def c9bCloses : List ℚ :=
  [100, 100, 100, 100, 100, 100, 100, 100, 100, 100,
   100, 100, 100, 100, 100, 100, 100, 100, 100, 90]

def c9bFetch : String → Option (List ℚ) := fun s =>
  if s == "AAA" then some fallenCloses
  else if s == "BBB" then some c9bCloses else none

/-- Witness for the amended C9: with two distinct deviations the screening
output is the same for both orders of the universe. -/
theorem C9_order_independent_when_distinct_witness :
    get_eligible_stocks_for_today c9bFetch ["AAA", "BBB"] =
      get_eligible_stocks_for_today c9bFetch ["BBB", "AAA"] := by
  refine (C9_order_independent_when_distinct c9bFetch _ _
    (List.Perm.swap _ _ _) ?_).2
  norm_num +decide [screenResults, screenOne, c9bFetch, fallenCloses,
    c9bCloses, latest20DMA, latestClose, List.filterMap_cons]

theorem sellCandidate_spec {get_cmp : String → Option ℚ} {target : ℚ}
    {g : String × List Trade} {q : String × ℚ}
    (h : sellCandidate get_cmp target g = some q) :
    q.1 = g.1 ∧ aggregate_pnl_pct get_cmp g.1 g.2 = some q.2 ∧ target ≤ q.2 := by
  simp only [sellCandidate] at h
  split at h
  · cases h
  next pct hagg =>
    split at h
    next ht =>
      cases h
      exact ⟨rfl, hagg, ht⟩
    · cases h

theorem sellCandidate_of {get_cmp : String → Option ℚ} {target pct : ℚ}
    {s : String} {ts : List Trade}
    (hagg : aggregate_pnl_pct get_cmp s ts = some pct) (ht : target ≤ pct) :
    sellCandidate get_cmp target (s, ts) = some (s, pct) := by
  simp only [sellCandidate, hagg]
  rw [if_pos ht]

/-- C1: In the sell pass a symbol group qualifies if and only if its aggregate
unrealized P&L percentage (computed from the quantity-weighted average entry
price of its matching active trades) reaches `targetPct`; the liquidation
list is sorted by descending P&L%, truncated to `maxSellsPerDay`, every sold
pair is a qualifying candidate, a uniquely-best qualifying symbol is always
sold when `maxSellsPerDay ≥ 1`, and in the concrete scenario with two
qualifying symbols at 8% and 6% and `maxSellsPerDay = 1`, exactly the 8%
symbol is sold. -/
theorem C1_sell_pass (name : String) (target : ℚ) (maxSells : Nat)
    (trades : List Trade) (get_cmp : String → Option ℚ) :
    ((initiate_sell name target maxSells trades get_cmp).length ≤ maxSells) ∧
    (((initiate_sell name target maxSells trades get_cmp).map (·.2)).Pairwise
       (fun a b => b ≤ a)) ∧
    (∀ p ∈ initiate_sell name target maxSells trades get_cmp,
       p ∈ sellCandidates name get_cmp target trades ∧ target ≤ p.2) ∧
    (∀ (s : String) (ts : List Trade) (pct : ℚ),
       (s, ts) ∈ symbol_trades name trades →
       aggregate_pnl_pct get_cmp s ts = some pct →
       ((s, pct) ∈ sellCandidates name get_cmp target trades ↔ target ≤ pct)) ∧
    (∀ p ∈ sellCandidates name get_cmp target trades,
       (∀ q ∈ sellCandidates name get_cmp target trades, q ≠ p → q.2 < p.2) →
       1 ≤ maxSells →
       p ∈ initiate_sell name target maxSells trades get_cmp) ∧
    initiate_sell "Aditi" 5 1 c1Trades c1Cmp = [("AAA", 8)] := by
  refine ⟨?_, ?_, ?_, ?_, ?_, ?_⟩
  · exact List.length_take_le maxSells _
  · exact List.pairwise_map.2 (pairwise_take_insertionSort pnlGe maxSells _)
  · intro p hp
    have hmem : p ∈ sellCandidates name get_cmp target trades :=
      mem_of_mem_take_insertionSort pnlGe hp
    obtain ⟨g, hg, hsome⟩ := List.mem_filterMap.1 hmem
    exact ⟨hmem, (sellCandidate_spec hsome).2.2⟩
  · intro s ts pct hmem hagg
    constructor
    · intro hin
      obtain ⟨g, hg, hsome⟩ := List.mem_filterMap.1 hin
      exact (sellCandidate_spec hsome).2.2
    · intro ht
      exact List.mem_filterMap.2 ⟨(s, ts), hmem, sellCandidate_of hagg ht⟩
  · intro p hp huniq hms
    unfold initiate_sell
    rcases hsort : List.insertionSort pnlGe
        (sellCandidates name get_cmp target trades) with _ | ⟨h0, t0⟩
    · exfalso
      have hx : p ∈ List.insertionSort pnlGe
          (sellCandidates name get_cmp target trades) :=
        (List.mem_insertionSort pnlGe).2 hp
      rw [hsort] at hx
      cases hx
    · have hpair : (h0 :: t0).Pairwise pnlGe := by
        rw [← hsort]
        exact List.sorted_insertionSort pnlGe _
      have hp2 : p ∈ h0 :: t0 := by
        rw [← hsort]
        exact (List.mem_insertionSort pnlGe).2 hp
      have hh0 : h0 ∈ sellCandidates name get_cmp target trades := by
        have hx : h0 ∈ h0 :: t0 := List.mem_cons_self h0 t0
        rw [← hsort] at hx
        exact (List.mem_insertionSort pnlGe).1 hx
      have hph0 : p = h0 := by
        rcases List.mem_cons.1 hp2 with he | hin
        · exact he
        · by_contra hne
          have hlt : h0.2 < p.2 :=
            huniq h0 hh0 (fun hh => hne (hh ▸ rfl))
          have hle : pnlGe h0 p := (List.pairwise_cons.1 hpair).1 p hin
          exact absurd hlt (not_lt.2 hle)
      subst hph0
      cases maxSells with
      | zero => omega
      | succ m =>
        rw [List.take_succ_cons]
        exact List.mem_cons_self _ _
  · norm_num +decide [initiate_sell, sellCandidates, symbol_trades,
      activeFilled, addToGroup, sellCandidate, aggregate_pnl_pct,
      weighted_entry, round_off_price, c1Trades, c1Cmp, mkTrade,
      List.insertionSort, List.orderedInsert, pnlGe, List.filterMap_cons]

/-- Witness for C1: in the two-symbol scenario the 8% symbol is the uniquely
best qualifying candidate and is indeed in the liquidation list. -/
theorem C1_sell_pass_witness :
    ("AAA", (8 : ℚ)) ∈ initiate_sell "Aditi" 5 1 c1Trades c1Cmp := by
  have hc : sellCandidates "Aditi" c1Cmp 5 c1Trades
      = [("AAA", 8), ("BBB", 6)] := by
    norm_num +decide [sellCandidates, symbol_trades, activeFilled, addToGroup,
      sellCandidate, aggregate_pnl_pct, weighted_entry, round_off_price,
      c1Trades, c1Cmp, mkTrade, List.filterMap_cons]
  refine (C1_sell_pass "Aditi" 5 1 c1Trades c1Cmp).2.2.2.2.1
    ("AAA", 8) ?_ ?_ ?_
  · rw [hc]
    exact List.mem_cons_self _ _
  · intro q hq hne
    rw [hc] at hq
    rcases List.mem_cons.1 hq with he | hin
    · exact absurd he hne
    · have hq2 : q = ("BBB", 6) := by simpa using hin
      subst hq2
      norm_num
  · norm_num

def c5Trades : List Trade := [mkTrade "CCC" 100 10 1, mkTrade "CCC" 90 10 2]

def c5Cmp : String → Option ℚ := fun s =>
  if s == "CCC" then some (209 / 2) else none

/-- C5: For a non-empty trade group the weighted-average entry price used by
the sell pass equals Σ(entry·qty)/Σqty; for fills {(100,10),(90,10)} it is
95, and the sell pass then computes a 10% aggregate P&L at price 104.5. -/
theorem C5_weighted_entry (ts : List Trade) (h : ts ≠ []) :
    weighted_entry ts
      = (ts.map (fun t => t.entry * t.filledQty)).sum
          / (ts.map (·.filledQty)).sum ∧
    weighted_entry c5Trades = 95 ∧
    initiate_sell "Aditi" 5 1 c5Trades c5Cmp = [("CCC", 10)] := by
  refine ⟨rfl, ?_, ?_⟩
  · norm_num +decide [weighted_entry, c5Trades, mkTrade]
  · norm_num +decide [initiate_sell, sellCandidates, symbol_trades,
      activeFilled, addToGroup, sellCandidate, aggregate_pnl_pct,
      weighted_entry, round_off_price, c5Trades, c5Cmp, mkTrade,
      List.insertionSort, List.orderedInsert, pnlGe, List.filterMap_cons]

/-- Witness for C5 at the concrete fills {(100,10),(90,10)}. -/
theorem C5_weighted_entry_witness :
    c5Trades ≠ [] ∧ weighted_entry c5Trades = 95 :=
  ⟨by simp [c5Trades], (C5_weighted_entry c5Trades (by simp [c5Trades])).2.1⟩

/-- C6: A symbol whose averaging count (completed, fully-filled long entries
ever placed by this strategy) has reached `maxAveragingPerStock` is excluded
from the averaging candidate set, and is never the averaging buy, no matter
how far its price has fallen. -/
theorem C6_averaging_cap (name : String) (avgPct : ℚ) (maxAvg maxBuys : Nat)
    (trades : List Trade) (get_cmp : String → Option ℚ)
    (stock_list : List String) (symbol : String)
    (h : maxAvg ≤ current_averaging_count name trades symbol) :
    (∀ q : ℚ, (symbol, q) ∉
        averagingCandidates name avgPct maxAvg trades get_cmp) ∧
    (initiate_buy name maxBuys avgPct maxAvg trades get_cmp
        stock_list).averagingBuy ≠ some symbol := by
  have hnot : ∀ q : ℚ, (symbol, q) ∉
      averagingCandidates name avgPct maxAvg trades get_cmp := by
    intro q hq
    have h1 := List.mem_filter.1 hq
    exact absurd (of_decide_eq_true h1.2) (Nat.not_lt.2 h)
  refine ⟨hnot, ?_⟩
  intro habs
  unfold initiate_buy at habs
  by_cases h0 : 0 < (step1_new_buys name maxBuys trades stock_list).length
  · rw [if_pos h0] at habs
    cases habs
  · rw [if_neg h0] at habs
    obtain ⟨p, hp1, hp2⟩ := Option.map_eq_some'.1 habs
    apply hnot p.2
    have hpp : (p.1, p.2) = p := rfl
    rw [hp2] at hpp
    rw [hpp]
    exact List.mem_of_mem_head? hp1

def c6Trades : List Trade :=
  [mkTrade "DDD" 100 10 1, mkTrade "DDD" 95 10 2, mkTrade "DDD" 90 10 3]

def c6Cmp : String → Option ℚ := fun s => if s == "DDD" then some 50 else none

/-- Witness for C6: `DDD` has been bought three times (the cap) and has
fallen 47% below its last buy price, yet is not the averaging buy. -/
theorem C6_averaging_cap_witness :
    3 ≤ current_averaging_count "Aditi" c6Trades "DDD" ∧
    (initiate_buy "Aditi" 1 (-5) 3 c6Trades c6Cmp ["DDD"]).averagingBuy
      ≠ some "DDD" := by
  have hcount : current_averaging_count "Aditi" c6Trades "DDD" = 3 := by
    norm_num +decide [current_averaging_count, c6Trades, mkTrade]
  refine ⟨by rw [hcount], ?_⟩
  exact (C6_averaging_cap "Aditi" (-5) 3 1 c6Trades c6Cmp ["DDD"] "DDD"
    (by rw [hcount])).2

theorem argmaxDate_fold_spec (rows : List Row) :
    ∀ b : Row, ∃ r : Row,
      rows.foldl
        (fun acc r2 =>
          match acc with
          | none => some r2
          | some b2 => if b2.date < r2.date then some r2 else some b2)
        (some b) = some r ∧
      (r = b ∨ r ∈ rows) ∧ b.date ≤ r.date ∧ ∀ r2 ∈ rows, r2.date ≤ r.date := by
  induction rows with
  | nil =>
    intro b
    exact ⟨b, rfl, Or.inl rfl, le_refl _, by simp⟩
  | cons a t ih =>
    intro b
    by_cases hd : b.date < a.date
    · obtain ⟨r, hfold, hmem, hbr, hall⟩ := ih a
      refine ⟨r, ?_, ?_, le_trans (le_of_lt hd) hbr, ?_⟩
      · simpa [hd] using hfold
      · rcases hmem with rfl | hm
        · exact Or.inr (List.mem_cons_self _ _)
        · exact Or.inr (List.mem_cons_of_mem _ hm)
      · intro r2 hr2
        rcases List.mem_cons.1 hr2 with rfl | hm
        · exact hbr
        · exact hall r2 hm
    · obtain ⟨r, hfold, hmem, hbr, hall⟩ := ih b
      refine ⟨r, ?_, ?_, hbr, ?_⟩
      · simpa [hd] using hfold
      · rcases hmem with rfl | hm
        · exact Or.inl rfl
        · exact Or.inr (List.mem_cons_of_mem _ hm)
      · intro r2 hr2
        rcases List.mem_cons.1 hr2 with rfl | hm
        · exact le_trans (not_lt.1 hd) hbr
        · exact hall r2 hm

theorem argmaxDate_spec (rows : List Row) (hne : rows ≠ []) :
    ∃ r, argmaxDate rows = some r ∧ r ∈ rows ∧ ∀ r2 ∈ rows, r2.date ≤ r.date := by
  rcases rows with _ | ⟨a, t⟩
  · exact absurd rfl hne
  · obtain ⟨r, hfold, hmem, _, hall⟩ := argmaxDate_fold_spec t a
    refine ⟨r, hfold, ?_, ?_⟩
    · rcases hmem with rfl | hm
      · exact List.mem_cons_self _ _
      · exact List.mem_cons_of_mem _ hm
    · intro r2 hr2
      rcases List.mem_cons.1 hr2 with rfl | hm
      · obtain ⟨r3, hf3, _, hbr3, _⟩ := argmaxDate_fold_spec t r2
        rw [hfold] at hf3
        obtain rfl := Option.some.inj hf3
        exact hbr3
      · exact hall r2 hm

theorem mem_distinct_fold (l : List String) :
    ∀ (acc : List String) (x : String),
      (x ∈ l.foldl
          (fun acc2 s => if acc2.contains s then acc2 else acc2 ++ [s]) acc)
        ↔ x ∈ acc ∨ x ∈ l := by
  induction l with
  | nil =>
    intro acc x
    simp
  | cons a t ih =>
    intro acc x
    by_cases hc : acc.contains a
    · have ha : a ∈ acc := by simpa using hc
      simp only [List.foldl_cons, if_pos hc, ih, List.mem_cons]
      constructor
      · rintro (h2 | h2)
        · exact Or.inl h2
        · exact Or.inr (Or.inr h2)
      · rintro (h2 | rfl | h2)
        · exact Or.inl h2
        · exact Or.inl ha
        · exact Or.inr h2
    · simp only [List.foldl_cons, if_neg hc, ih, List.mem_append,
        List.mem_singleton, List.mem_cons]
      tauto

theorem mem_distinctSymbols {rows : List Row} {s : String} :
    s ∈ distinctSymbols rows ↔ s ∈ rows.map (·.symbol) := by
  unfold distinctSymbols
  rw [mem_distinct_fold]
  simp

theorem latestRows_sound {rows : List Row} {r : Row}
    (h : r ∈ latestRows rows) :
    r ∈ rows ∧ ∀ r2 ∈ rows, r2.symbol = r.symbol → r2.date ≤ r.date := by
  unfold latestRows at h
  obtain ⟨s, _, hsome⟩ := List.mem_filterMap.1 h
  have hne : rows.filter (fun r2 => r2.symbol == s) ≠ [] := by
    intro hnil
    rw [hnil] at hsome
    cases hsome
  obtain ⟨r3, hr3eq, hr3mem, hr3max⟩ := argmaxDate_spec _ hne
  rw [hsome] at hr3eq
  obtain rfl := Option.some.inj hr3eq
  have hrs : r.symbol = s := by
    have hx := List.of_mem_filter hr3mem
    simpa using hx
  constructor
  · exact List.mem_of_mem_filter hr3mem
  · intro r2 hr2 hsym
    refine hr3max r2 (List.mem_filter.2 ⟨hr2, ?_⟩)
    simp [hsym, hrs]

theorem latestRows_complete {rows : List Row} {r : Row} (h : r ∈ rows) :
    ∃ r2 ∈ latestRows rows,
      r2.symbol = r.symbol ∧ r2 ∈ rows ∧ r.date ≤ r2.date := by
  have hne : rows.filter (fun r2 => r2.symbol == r.symbol) ≠ [] := by
    intro hnil
    have hx : r ∈ rows.filter (fun r2 => r2.symbol == r.symbol) :=
      List.mem_filter.2 ⟨h, by simp⟩
    rw [hnil] at hx
    cases hx
  obtain ⟨r2, hr2eq, hr2mem, hr2max⟩ := argmaxDate_spec _ hne
  have hr2sym : r2.symbol = r.symbol := by
    have hx := List.of_mem_filter hr2mem
    simpa using hx
  refine ⟨r2, ?_, hr2sym, List.mem_of_mem_filter hr2mem, ?_⟩
  · unfold latestRows
    refine List.mem_filterMap.2 ⟨r.symbol, ?_, hr2eq⟩
    rw [List.mem_insertionSort]
    exact mem_distinctSymbols.2 (List.mem_map.2 ⟨r, h, rfl⟩)
  · exact hr2max r (List.mem_filter.2 ⟨h, by simp⟩)

theorem distinct_fold_nodup (l : List String) :
    ∀ acc : List String, acc.Nodup →
      (l.foldl
        (fun acc2 s => if acc2.contains s then acc2 else acc2 ++ [s])
        acc).Nodup := by
  induction l with
  | nil =>
    intro acc hacc
    simpa using hacc
  | cons a t ih =>
    intro acc hacc
    by_cases hc : acc.contains a
    · simp only [List.foldl_cons, if_pos hc]
      exact ih acc hacc
    · simp only [List.foldl_cons, if_neg hc]
      refine ih _ ?_
      have hna : a ∉ acc := by
        intro hmem
        exact hc (by simpa using hmem)
      simp [List.nodup_append, hacc, hna]

theorem latest_symbols_sublist (rows : List Row) (l : List String) :
    ((l.filterMap
        (fun s => argmaxDate (rows.filter (fun r => r.symbol == s)))).map
      (·.symbol)).Sublist l := by
  induction l with
  | nil => simp
  | cons a t ih =>
    rw [List.filterMap_cons]
    cases hx : argmaxDate (rows.filter (fun r => r.symbol == a)) with
    | none => exact ih.cons a
    | some r =>
      have hsym : r.symbol = a := by
        have hne : rows.filter (fun r2 => r2.symbol == a) ≠ [] := by
          intro hnil
          rw [hnil] at hx
          cases hx
        obtain ⟨r3, he, hm, _⟩ := argmaxDate_spec _ hne
        rw [hx] at he
        obtain rfl := Option.some.inj he
        have hy := List.of_mem_filter hm
        simpa using hy
      rw [List.map_cons, hsym]
      exact ih.cons₂ a

theorem head?_min_chLe {l : List (String × ℚ)} {p : String × ℚ}
    (hp : l.head? = some p) (hpair : l.Pairwise chLe) :
    ∀ x ∈ l, p.2 ≤ x.2 := by
  cases l with
  | nil => cases hp
  | cons a t =>
    obtain rfl : a = p := by simpa using hp
    intro x hx
    rcases List.mem_cons.1 hx with rfl | hin
    · exact le_refl _
    · exact (List.pairwise_cons.1 hpair).1 x hin

theorem latestRows_symbols_nodup (rows : List Row) :
    ((latestRows rows).map (·.symbol)).Nodup := by
  unfold latestRows
  refine List.Nodup.sublist (latest_symbols_sublist rows _) ?_
  refine (List.perm_insertionSort strLeP _).nodup_iff.2 ?_
  exact distinct_fold_nodup _ [] List.nodup_nil

/-- C7: When the averaging step runs, its candidate set consists exactly of
the currently held symbols taken one per symbol at the latest entry
timestamp, restricted to those whose (rounded) change from last buy price to
current price is ≤ `averagingPct` and whose averaging count is below the cap;
the single averaging buy, when placed, is a candidate with the minimal
(most negative) change, and with no candidates no buy is placed. -/
theorem C7_averaging_step (name : String) (avgPct : ℚ) (maxAvg : Nat)
    (trades : List Trade) (get_cmp : String → Option ℚ) :
    (∀ r ∈ latestRows (holdingRows name trades),
       r ∈ holdingRows name trades ∧
       ∀ r2 ∈ holdingRows name trades, r2.symbol = r.symbol →
         r2.date ≤ r.date) ∧
    (∀ r ∈ holdingRows name trades, ∃ r2 ∈ latestRows (holdingRows name trades),
       r2.symbol = r.symbol) ∧
    ((latestRows (holdingRows name trades)).map (·.symbol)).Nodup ∧
    (∀ p ∈ averagingCandidates name avgPct maxAvg trades get_cmp,
       ∃ r ∈ latestRows (holdingRows name trades),
         p.1 = r.symbol ∧
         (∃ cmp, get_cmp r.symbol = some cmp ∧
            p.2 = changePct r.lastBuyPrice cmp) ∧
         p.2 ≤ avgPct ∧ current_averaging_count name trades p.1 < maxAvg) ∧
    (∀ r ∈ latestRows (holdingRows name trades),
       ∀ cmp, get_cmp r.symbol = some cmp →
       changePct r.lastBuyPrice cmp ≤ avgPct →
       current_averaging_count name trades r.symbol < maxAvg →
       (r.symbol, changePct r.lastBuyPrice cmp)
         ∈ averagingCandidates name avgPct maxAvg trades get_cmp) ∧
    (∀ (maxBuys : Nat) (stock_list : List String),
       step1_new_buys name maxBuys trades stock_list = [] →
       ((averagingCandidates name avgPct maxAvg trades get_cmp = [] →
           (initiate_buy name maxBuys avgPct maxAvg trades get_cmp
               stock_list).averagingBuy = none) ∧
        (∀ s, (initiate_buy name maxBuys avgPct maxAvg trades get_cmp
               stock_list).averagingBuy = some s →
           ∃ q, (s, q) ∈ averagingCandidates name avgPct maxAvg trades get_cmp ∧
             ∀ p ∈ averagingCandidates name avgPct maxAvg trades get_cmp,
               q ≤ p.2))) := by
  refine ⟨?_, ?_, latestRows_symbols_nodup _, ?_, ?_, ?_⟩
  · intro r hr
    exact latestRows_sound hr
  · intro r hr
    obtain ⟨r2, hmem, hsym, _, _⟩ := latestRows_complete hr
    exact ⟨r2, hmem, hsym⟩
  · intro p hp
    have h1 := List.mem_filter.1 hp
    have hcnt : current_averaging_count name trades p.1 < maxAvg :=
      of_decide_eq_true h1.2
    have h3 := (List.mem_insertionSort chLe).1 h1.1
    have h4 := List.mem_filter.1 h3
    have hle : p.2 ≤ avgPct := of_decide_eq_true h4.2
    obtain ⟨r, hr, hsome⟩ := List.mem_filterMap.1 h4.1
    rcases hcmp : get_cmp r.symbol with _ | cmp
    · rw [hcmp] at hsome
      cases hsome
    · rw [hcmp] at hsome
      obtain rfl := Option.some.inj hsome
      exact ⟨r, hr, rfl, ⟨cmp, hcmp, rfl⟩, hle, hcnt⟩
  · intro r hr cmp hcmp hle hcnt
    refine List.mem_filter.2 ⟨?_, decide_eq_true hcnt⟩
    refine (List.mem_insertionSort chLe).2 ?_
    refine List.mem_filter.2 ⟨?_, decide_eq_true hle⟩
    refine List.mem_filterMap.2 ⟨r, hr, ?_⟩
    rw [hcmp]
  · intro maxBuys stock_list hstep
    have hbuy : (initiate_buy name maxBuys avgPct maxAvg trades get_cmp
        stock_list).averagingBuy
        = (averagingCandidates name avgPct maxAvg trades get_cmp).head?.map
            (·.1) := by
      simp [initiate_buy, hstep]
    constructor
    · intro hcands
      rw [hbuy, hcands]
      rfl
    · intro s hsome2
      rw [hbuy] at hsome2
      obtain ⟨p, hp1, hp2⟩ := Option.map_eq_some'.1 hsome2
      have hpmem : p ∈ averagingCandidates name avgPct maxAvg trades get_cmp :=
        List.mem_of_mem_head? hp1
      refine ⟨p.2, ?_, ?_⟩
      · have hpp : (p.1, p.2) = p := rfl
        rw [hp2] at hpp
        rw [hpp]
        exact hpmem
      · exact head?_min_chLe hp1
          (List.Pairwise.filter _ (List.sorted_insertionSort chLe _))

/-- Witness for C7: one held symbol `HHH`, fallen 10%: it is the unique
candidate and the averaging buy, at the minimal change. -/
theorem C7_averaging_step_witness :
    (initiate_buy "Aditi" 1 (-5) 3 c2Trades c2Cmp ["HHH"]).averagingBuy
      = some "HHH" ∧
    ("HHH", (-10 : ℚ))
      ∈ averagingCandidates "Aditi" (-5) 3 c2Trades c2Cmp ∧
    ∀ p ∈ averagingCandidates "Aditi" (-5) 3 c2Trades c2Cmp, -10 ≤ p.2 := by
  have hstep : step1_new_buys "Aditi" 1 c2Trades ["HHH"] = [] := by
    norm_num +decide [step1_new_buys, alreadyHeld, c2Trades, mkTrade]
  have hchoice : (initiate_buy "Aditi" 1 (-5) 3 c2Trades c2Cmp
      ["HHH"]).averagingBuy = some "HHH" := by
    norm_num +decide [initiate_buy, step1_new_buys, alreadyHeld,
      averagingCandidates, averagingWithChange, latestRows, holdingRows,
      activeFilled, distinctSymbols, strLeP, strLeAux, argmaxDate, changePct,
      roundq2, round_half_even, current_averaging_count, chLe, c2Trades, c2Cmp,
      mkTrade, List.insertionSort, List.orderedInsert, List.filterMap_cons]
  obtain ⟨q, hqmem, hqmin⟩ :=
    (((C7_averaging_step "Aditi" (-5) 3 c2Trades c2Cmp).2.2.2.2.2
      1 ["HHH"] hstep).2 "HHH" hchoice)
  have hq10 : q = -10 := by
    have hc : averagingCandidates "Aditi" (-5) 3 c2Trades c2Cmp
        = [("HHH", -10)] := by
      norm_num +decide [averagingCandidates, averagingWithChange, latestRows,
        holdingRows, activeFilled, distinctSymbols, strLeP, strLeAux,
        argmaxDate, changePct, roundq2, round_half_even,
        current_averaging_count, chLe, c2Trades, c2Cmp, mkTrade,
        List.insertionSort, List.orderedInsert, List.filterMap_cons]
    rw [hc] at hqmem
    have hx : ("HHH", q) = ("HHH", (-10 : ℚ)) := by simpa using hqmem
    exact congrArg Prod.snd hx
  subst hq10
  exact ⟨hchoice, hqmem, hqmin⟩

/-- C10: In the dashboard, the averaging step prices a held symbol only from
the screened top-5 table: a held symbol absent from the screening output is
never an averaging candidate and never the averaging recommendation,
regardless of its fall. -/
theorem C10_app_averaging_requires_screen (maxBuys : Nat) (avgPct : ℚ)
    (eligible : List ScreenRow) (holdings : List Holding) (sym : String)
    (habs : ∀ r ∈ eligible, r.symbol ≠ sym) :
    (∀ q : ℚ, (sym, q) ∉ app_potential_avg avgPct eligible holdings) ∧
    app_averaging_choice maxBuys avgPct eligible holdings ≠ some sym := by
  have hnot : ∀ q : ℚ, (sym, q) ∉ app_potential_avg avgPct eligible holdings := by
    intro q hq
    obtain ⟨hh, _, hsome⟩ := List.mem_filterMap.1 hq
    rcases hfind : eligible.find? (fun r2 => r2.symbol == hh.symbol)
      with _ | r
    · simp only [hfind] at hsome
      exact Option.noConfusion hsome
    · simp only [hfind] at hsome
      have hrmem : r ∈ eligible := List.mem_of_find?_eq_some hfind
      have hrsym : r.symbol = hh.symbol := by
        have hx := List.find?_some hfind
        simpa using hx
      split at hsome
      · have hy : hh.symbol = sym :=
          congrArg Prod.fst (Option.some.inj hsome)
        exact habs r hrmem (hrsym.trans hy)
      · cases hsome
  refine ⟨hnot, ?_⟩
  intro hch
  simp only [app_averaging_choice] at hch
  split at hch
  · obtain ⟨p, hp1, hp2⟩ := Option.map_eq_some'.1 hch
    have hpmem : p ∈ app_potential_avg avgPct eligible holdings :=
      (List.mem_insertionSort chLe).1 (List.mem_of_mem_head? hp1)
    apply hnot p.2
    have hpp : (p.1, p.2) = p := rfl
    rw [hp2] at hpp
    rw [hpp]
    exact hpmem
  · cases hch

def c10Eligible : List ScreenRow := [⟨"EEE", -10, 90, 100⟩]

def c10Holdings : List Holding := [⟨"FFF", 100, -50⟩]

/-- Witness for C10: `FFF` is held and 50% down, but absent from the screened
table, so it is never the averaging recommendation. -/
theorem C10_app_averaging_requires_screen_witness :
    app_averaging_choice 1 (-5) c10Eligible c10Holdings ≠ some "FFF" := by
  refine (C10_app_averaging_requires_screen 1 (-5) c10Eligible c10Holdings
    "FFF" ?_).2
  intro r hr
  have hx : r = (⟨"EEE", -10, 90, 100⟩ : ScreenRow) := by
    simpa [c10Eligible] using hr
  subst hx
  decide

end NiftyShop
